import Mathlib

/-!
Shallow embedding of the iteration-timeline reconstruction algorithm of
`visualizing_jobs/print-iterations.py` (functions `find_suspended_timestamps`,
`correct_time_due_suspension` and `parse_iteration_log`).

Timestamps are modelled by `ℚ` (the source uses binary floats; all claims are
about the exact arithmetic structure of the computation), iteration numbers and
job ids by `ℕ` (the log grammar only produces non-negative integers).  A log
corpus is a list of files, each file holding the iteration records and the
suspension records matched in it; the regex matching itself is not modelled,
only the stream of records it yields.
-/

deriving instance DecidableEq for Except

namespace IterTimeline

/-- One matched `ITERATION`/`SKIPPED TO ITERATION` log line: fields in the
order of the capture groups of `log_pattern`. -/
structure IterRec where
  skipped : Bool
  iter : ℕ
  job : ℕ
  time : ℚ
deriving DecidableEq

/-- One matched `SUSPENDED ... until time` log line (capture groups of
`susp_pattern`). -/
structure SuspRec where
  job : ℕ
  time : ℚ
deriving DecidableEq

/-- One log file: the iteration records and suspension records matched in it. -/
structure LogFile where
  iters : List IterRec
  susps : List SuspRec
deriving DecidableEq

/-- The per-job reconstructed timeline: the structured array `combined` with
fields `iter`, `time`, `iter_time`, `skipped`. -/
structure JobTimeline where
  iter : List ℕ
  time : List ℚ
  iter_time : List ℚ
  skipped : List Bool
deriving DecidableEq

/-- Insert into a sorted duplicate-free list, keeping it sorted and
duplicate-free. -/
def insortU {α : Type} [LinearOrder α] (x : α) : List α → List α
  | [] => [x]
  | y :: ys => if x < y then x :: y :: ys else if x = y then y :: ys else y :: insortU x ys

/-- `np.unique`: the sorted duplicate-free list of the elements of `l`. -/
def sortU {α : Type} [LinearOrder α] (l : List α) : List α := l.foldr insortU []

/-- All iteration records of a corpus, pooled in file order (`np.concat` of the
per-file `np.fromregex` results). -/
def allIters (files : List LogFile) : List IterRec :=
  files.foldr (fun f acc => f.iters ++ acc) []

/-- Whether a file contains at least one suspension record for job `j` (i.e.
whether `j` is a key of the dict built by `find_suspended_timestamps` on that
file). -/
def fileHasSusp (f : LogFile) (j : ℕ) : Bool :=
  f.susps.any (fun s => s.job == j)

/-- `find_suspended_timestamps`, read at job `j`: the sorted duplicate-free
resume times of `j`'s suspension records in one file (`np.unique` over the
(job, time) pairs, grouped by job). -/
def find_suspended_timestamps (f : LogFile) (j : ℕ) : List ℚ :=
  sortU ((f.susps.filter (fun s => s.job == j)).map (fun s => s.time))

/-- The `restarted_at` dict after the per-file loop of `parse_iteration_log`:
each file's dict is merged with `|=`, which REPLACES the list of every job the
file has suspension records for; a job never seen maps to `[]` (defaultdict). -/
def mergeRestarts (files : List LogFile) (j : ℕ) : List ℚ :=
  files.foldl (fun acc f => if fileHasSusp f j then find_suspended_timestamps f j else acc) []

/-- The records of job `j` (`log_iters[log_iters['job'] == job]`). -/
def recsOf (iters : List IterRec) (j : ℕ) : List IterRec :=
  iters.filter (fun r => r.job == j)

/-- The records of one (job, iteration) group, job-filtering already done. -/
def groupOf (recs : List IterRec) (it : ℕ) : List IterRec :=
  recs.filter (fun r => r.iter == it)

/-- `get_avg_for_iters job it`: `np.mean` of the group's timestamps, as exact
rational arithmetic (sum divided by count). -/
def avgTime (recs : List IterRec) (it : ℕ) : ℚ :=
  ((groupOf recs it).map (fun r => r.time)).sum / ((groupOf recs it).length : ℚ)

/-- `np.any(... ['skipped'])` over one (job, iteration) group: the explicit
skip marker signal. -/
def explSkip (recs : List IterRec) (it : ℕ) : Bool :=
  (groupOf recs it).any (fun r => r.skipped)

/-- `avg_iter_time` before zeroing: `d[0] = t[0]`, `d[i] = t[i] - t[i-1]`
(the in-place `avg_iter_time[1:] -= avg_timestamp[:-1]`). -/
def durList : List ℚ → List ℚ
  | [] => []
  | t :: ts => t :: List.zipWith (fun (a b : ℚ) => b - a) (t :: ts) ts

/-- The gap heuristic flags (`to_rem != 0` after `to_rem[1:] -= to_rem[:-1]+1`
and `to_rem[0] = 0`): position 0 is never flagged, position `i > 0` is flagged
when `iter[i] - iter[i-1] - 1 ≠ 0` (int64 arithmetic, modelled on `ℤ`). -/
def gapFlags : List ℕ → List Bool
  | [] => []
  | i :: is =>
      false :: List.zipWith (fun (a b : ℕ) => decide (((b : ℤ) - (a : ℤ) - 1) ≠ 0)) (i :: is) is

/-- The per-job body of `parse_iteration_log`'s loop, before suspension
correction: distinct sorted iterations, mean timestamps, raw durations, the
OR of the two skip signals, and durations zeroed at skipped positions. -/
def buildJob (iters : List IterRec) (j : ℕ) : JobTimeline :=
  let recs := recsOf iters j
  let its := sortU (recs.map (fun r => r.iter))
  let times := its.map (avgTime recs)
  let raw := durList times
  let skips := List.zipWith (fun it g => explSkip recs it || g) its (gapFlags its)
  let durs := List.zipWith (fun s d => if s then 0 else d) skips raw
  ⟨its, times, durs, skips⟩

/-- `np.where(np.bitwise_not(time <= rstr))[0][0]`: index of the first
timestamp strictly greater than `r`, if any. -/
def firstIdxGT (r : ℚ) : List ℚ → Option ℕ
  | [] => none
  | t :: ts => if t ≤ r then (firstIdxGT r ts).map (fun i => i + 1) else some 0

/-- One pass of the loop body of `correct_time_due_suspension`: the Python
`assert rstr_ind > 0` is modelled as an `Except.error` carrying the assertion
message. -/
def correctOne (tl : JobTimeline) (r : ℚ) : Except String JobTimeline :=
  match firstIdxGT r tl.time with
  | none => Except.ok tl
  | some i =>
      if i = 0 then Except.error "The job cannot be suspended before it started running"
      else Except.ok { tl with
        iter_time := tl.iter_time.set i (tl.iter_time.getD i 0 - (r - tl.time.getD (i - 1) 0)) }

/-- `correct_time_due_suspension`: fold the loop body over the job's resume
times; an exception escapes the whole computation. -/
def correct_time_due_suspension (tl : JobTimeline) : List ℚ → Except String JobTimeline
  | [] => Except.ok tl
  | r :: rs => (correctOne tl r).bind (fun tl2 => correct_time_due_suspension tl2 rs)

/-- `np.unique(log_iters['job'])`: the jobs of the output dict, in ascending
order. -/
def jobIdsOf (iters : List IterRec) : List ℕ := sortU (iters.map (fun r => r.job))

/-- The per-job loop of `parse_iteration_log`: build each timeline then apply
the suspension correction; a Python exception raised for any job escapes the
whole call (the partially built dict is lost). -/
def parseJobs (iters : List IterRec) (restarts : ℕ → List ℚ) :
    List ℕ → Except String (List (ℕ × JobTimeline))
  | [] => Except.ok []
  | j :: js =>
      (correct_time_due_suspension (buildJob iters j) (restarts j)).bind (fun tl =>
        (parseJobs iters restarts js).bind (fun rest => Except.ok ((j, tl) :: rest)))

/-- `parse_iteration_log` on an already-matched corpus: pool the iteration
records, build the suspension index with the per-file `|=` merge, and
reconstruct every job that has at least one iteration record. -/
def parse_iteration_log (files : List LogFile) : Except String (List (ℕ × JobTimeline)) :=
  parseJobs (allIters files) (mergeRestarts files) (jobIdsOf (allIters files))

/-! ### Lemmas about `insortU` / `sortU` -/

theorem mem_insortU {α : Type} [LinearOrder α] (x a : α) :
    ∀ l : List α, a ∈ insortU x l ↔ a = x ∨ a ∈ l := by
  intro l
  induction l with
  | nil => simp [insortU]
  | cons y ys ih =>
      by_cases hlt : x < y
      · simp [insortU, hlt]
      · by_cases heq : x = y
        · subst heq
          show a ∈ (if x < x then x :: x :: ys else if x = x then x :: ys else x :: insortU x ys)
              ↔ a = x ∨ a ∈ x :: ys
          rw [if_neg (lt_irrefl x), if_pos rfl]
          simp only [List.mem_cons]
          tauto
        · simp only [insortU, if_neg hlt, if_neg heq, List.mem_cons, ih]
          tauto

theorem insortU_ne_nil {α : Type} [LinearOrder α] (x : α) :
    ∀ l : List α, insortU x l ≠ [] := by
  intro l
  cases l with
  | nil => simp [insortU]
  | cons y ys =>
      by_cases hlt : x < y
      · simp [insortU, hlt]
      · by_cases heq : x = y
        · simp [insortU, hlt, heq]
        · simp [insortU, hlt, heq]

theorem head?_insortU {α : Type} [LinearOrder α] (x z : α) :
    ∀ l : List α, (insortU x l).head? = some z → z = x ∨ l.head? = some z := by
  intro l
  cases l with
  | nil => intro h; simp [insortU] at h; exact Or.inl h.symm
  | cons y ys =>
      by_cases hlt : x < y
      · intro h; simp [insortU, hlt] at h; exact Or.inl h.symm
      · by_cases heq : x = y
        · intro h; simp [insortU, hlt, heq] at h; right; simp [h]
        · intro h; simp [insortU, hlt, heq] at h; right; simp [h]

theorem chain'_insortU {α : Type} [LinearOrder α] (x : α) :
    ∀ l : List α, List.Chain' (· < ·) l → List.Chain' (· < ·) (insortU x l) := by
  intro l
  induction l with
  | nil => intro _; simp [insortU]
  | cons y ys ih =>
      intro hch
      rw [List.chain'_cons'] at hch
      by_cases hlt : x < y
      · show List.Chain' (· < ·) (if x < y then x :: y :: ys else _)
        rw [if_pos hlt, List.chain'_cons']
        refine ⟨?_, ?_⟩
        · intro b hb; simp at hb; subst hb; exact hlt
        · rw [List.chain'_cons']; exact hch
      · by_cases heq : x = y
        · show List.Chain' (· < ·) (if x < y then _ else if x = y then y :: ys else _)
          rw [if_neg hlt, if_pos heq, List.chain'_cons']; exact hch
        · have hyx : y < x := lt_of_le_of_ne (not_lt.mp hlt) (Ne.symm heq)
          show List.Chain' (· < ·) (if x < y then _ else if x = y then _ else y :: insortU x ys)
          rw [if_neg hlt, if_neg heq, List.chain'_cons']
          refine ⟨?_, ih hch.2⟩
          intro b hb
          rcases head?_insortU x b ys hb with h | h
          · subst h; exact hyx
          · exact hch.1 b h

theorem sortU_cons {α : Type} [LinearOrder α] (x : α) (l : List α) :
    sortU (x :: l) = insortU x (sortU l) := rfl

theorem sortU_chain' {α : Type} [LinearOrder α] :
    ∀ l : List α, List.Chain' (· < ·) (sortU l) := by
  intro l
  induction l with
  | nil => simp [sortU]
  | cons x xs ih => rw [sortU_cons]; exact chain'_insortU x _ ih

theorem mem_sortU {α : Type} [LinearOrder α] (a : α) :
    ∀ l : List α, a ∈ sortU l ↔ a ∈ l := by
  intro l
  induction l with
  | nil => simp [sortU]
  | cons x xs ih => rw [sortU_cons, mem_insortU, ih]; simp

theorem sortU_eq_nil_iff {α : Type} [LinearOrder α] (l : List α) :
    sortU l = [] ↔ l = [] := by
  cases l with
  | nil => simp [sortU]
  | cons x xs =>
      rw [sortU_cons]
      constructor
      · intro h; exact absurd h (insortU_ne_nil x _)
      · intro h; exact absurd h (by simp)

/-! ### Arithmetic-mean lemmas -/

theorem list_sum_le_length_mul (c : ℚ) :
    ∀ l : List ℚ, (∀ a ∈ l, a ≤ c) → l.sum ≤ (l.length : ℚ) * c := by
  intro l
  induction l with
  | nil => intro _; simp
  | cons x xs ih =>
      intro h
      have hx : x ≤ c := h x (by simp)
      have hxs : xs.sum ≤ (xs.length : ℚ) * c := ih (fun a ha => h a (by simp [ha]))
      simp only [List.sum_cons, List.length_cons]
      push_cast
      nlinarith

theorem list_length_mul_le_sum (c : ℚ) :
    ∀ l : List ℚ, (∀ a ∈ l, c ≤ a) → (l.length : ℚ) * c ≤ l.sum := by
  intro l
  induction l with
  | nil => intro _; simp
  | cons x xs ih =>
      intro h
      have hx : c ≤ x := h x (by simp)
      have hxs : (xs.length : ℚ) * c ≤ xs.sum := ih (fun a ha => h a (by simp [ha]))
      simp only [List.sum_cons, List.length_cons]
      push_cast
      nlinarith

/-- If every element of `g1` is at most every element of `g2` and both are
nonempty, the mean of `g1` is at most the mean of `g2`. -/
theorem mean_le_mean (g1 g2 : List ℚ) (h1 : g1 ≠ []) (h2 : g2 ≠ [])
    (h : ∀ a ∈ g1, ∀ b ∈ g2, a ≤ b) :
    g1.sum / (g1.length : ℚ) ≤ g2.sum / (g2.length : ℚ) := by
  have n1 : (0 : ℚ) < (g1.length : ℚ) := by
    have : 0 < g1.length := List.length_pos.mpr h1
    exact_mod_cast this
  have n2 : (0 : ℚ) < (g2.length : ℚ) := by
    have : 0 < g2.length := List.length_pos.mpr h2
    exact_mod_cast this
  have hub : ∀ b ∈ g2, g1.sum / (g1.length : ℚ) ≤ b := by
    intro b hb
    rw [div_le_iff₀ n1]
    have := list_sum_le_length_mul b g1 (fun a ha => h a ha b hb)
    linarith [this]
  have hsum : (g2.length : ℚ) * (g1.sum / (g1.length : ℚ)) ≤ g2.sum :=
    list_length_mul_le_sum _ g2 hub
  rw [le_div_iff₀ n2]
  linarith [hsum]

/-- Mapping a function that is monotone on the elements of a strictly sorted
list yields a `≤`-sorted list. -/
theorem chain'_le_map {α : Type} [LinearOrder α] (f : α → ℚ) :
    ∀ l : List α, List.Chain' (· < ·) l →
      (∀ a ∈ l, ∀ b ∈ l, a < b → f a ≤ f b) → List.Chain' (· ≤ ·) (l.map f) := by
  intro l
  induction l with
  | nil => intro _ _; simp
  | cons x xs ih =>
      intro hch hmono
      rw [List.chain'_cons'] at hch
      rw [List.map_cons, List.chain'_cons']
      refine ⟨?_, ih hch.2 (fun a ha b hb hab => hmono a (by simp [ha]) b (by simp [hb]) hab)⟩
      intro v hv
      cases xs with
      | nil => simp at hv
      | cons y ys =>
          simp only [List.map_cons, List.head?_cons, Option.mem_def, Option.some.injEq] at hv
          subst hv
          have hxy : x < y := hch.1 y rfl
          exact hmono x (by simp) y (by simp) hxy

/-! ### Indexing lemmas for the derived per-job arrays -/

theorem durList_length : ∀ l : List ℚ, (durList l).length = l.length := by
  intro l
  cases l with
  | nil => rfl
  | cons t ts => simp [durList]

theorem gapFlags_length : ∀ l : List ℕ, (gapFlags l).length = l.length := by
  intro l
  cases l with
  | nil => rfl
  | cons i is =>
      show (List.zipWith (fun (a b : ℕ) => decide (((b : ℤ) - (a : ℤ) - 1) ≠ 0))
            (i :: is) is).length + 1 = is.length + 1
      rw [List.length_zipWith]
      simp [Nat.min_def]

theorem gapFlags_get?_zero (l : List ℕ) :
    (gapFlags l).get? 0 = l.head?.map (fun _ => false) := by
  cases l with
  | nil => rfl
  | cons i is => rfl

theorem gapFlags_get?_succ (l : List ℕ) (k : ℕ) (g : Bool) :
    (gapFlags l).get? (k + 1) = some g ↔
      ∃ a b, l.get? k = some a ∧ l.get? (k + 1) = some b ∧
        decide (((b : ℤ) - (a : ℤ) - 1) ≠ 0) = g := by
  cases l with
  | nil => simp [gapFlags]
  | cons i is =>
      show (List.zipWith (fun (a b : ℕ) => decide (((b : ℤ) - (a : ℤ) - 1) ≠ 0))
            (i :: is) is).get? k = some g ↔
          ∃ a b, (i :: is).get? k = some a ∧ (i :: is).get? (k + 1) = some b ∧
            decide (((b : ℤ) - (a : ℤ) - 1) ≠ 0) = g
      rw [List.get?_zipWith_eq_some]
      exact Iff.rfl

/-! ### Lemmas about `firstIdxGT` and the suspension correction -/

theorem firstIdxGT_eq_none (r : ℚ) :
    ∀ l : List ℚ, (∀ k, k < l.length → l.getD k 0 ≤ r) → firstIdxGT r l = none := by
  intro l
  induction l with
  | nil => intro _; rfl
  | cons t ts ih =>
      intro h
      have ht : t ≤ r := by
        have := h 0 (by simp)
        simpa using this
      have hts : firstIdxGT r ts = none := by
        apply ih
        intro k hk
        have := h (k + 1) (by simpa using Nat.succ_lt_succ hk)
        simpa using this
      show (if t ≤ r then (firstIdxGT r ts).map (fun i => i + 1) else some 0) = none
      rw [if_pos ht, hts]
      rfl

theorem firstIdxGT_eq_some (r : ℚ) :
    ∀ (l : List ℚ) (i : ℕ), i < l.length → (∀ k, k < i → l.getD k 0 ≤ r) →
      r < l.getD i 0 → firstIdxGT r l = some i := by
  intro l
  induction l with
  | nil => intro i hi; simp at hi
  | cons t ts ih =>
      intro i hi hlow hhigh
      cases i with
      | zero =>
          have hti : r < t := by simpa using hhigh
          show (if t ≤ r then (firstIdxGT r ts).map (fun i => i + 1) else some 0) = some 0
          rw [if_neg (not_le.mpr hti)]
      | succ i' =>
          have ht : t ≤ r := by
            have := hlow 0 (Nat.succ_pos i')
            simpa using this
          have hrec : firstIdxGT r ts = some i' := by
            apply ih
            · simpa using Nat.lt_of_succ_lt_succ hi
            · intro k hk
              have := hlow (k + 1) (Nat.succ_lt_succ hk)
              simpa using this
            · simpa using hhigh
          show (if t ≤ r then (firstIdxGT r ts).map (fun i => i + 1) else some 0) = some (i' + 1)
          rw [if_pos ht, hrec]
          rfl

theorem firstIdxGT_cons_zero (r t : ℚ) (ts : List ℚ) (h : r < t) :
    firstIdxGT r (t :: ts) = some 0 := by
  show (if t ≤ r then (firstIdxGT r ts).map (fun i => i + 1) else some 0) = some 0
  rw [if_neg (not_le.mpr h)]

theorem correctOne_eq_none (tl : JobTimeline) (r : ℚ)
    (h : firstIdxGT r tl.time = none) : correctOne tl r = Except.ok tl := by
  unfold correctOne
  rw [h]

theorem correctOne_eq_some (tl : JobTimeline) (r : ℚ) (i : ℕ)
    (h : firstIdxGT r tl.time = some i) :
    correctOne tl r =
      if i = 0 then Except.error "The job cannot be suspended before it started running"
      else Except.ok { tl with
        iter_time := tl.iter_time.set i (tl.iter_time.getD i 0 - (r - tl.time.getD (i - 1) 0)) } := by
  unfold correctOne
  rw [h]

/-- The only fields the one-event correction can change are the durations, and
their number is preserved. -/
theorem correctOne_fields (tl tl2 : JobTimeline) (r : ℚ)
    (h : correctOne tl r = Except.ok tl2) :
    tl2.iter = tl.iter ∧ tl2.time = tl.time ∧ tl2.skipped = tl.skipped ∧
      tl2.iter_time.length = tl.iter_time.length := by
  cases hfi : firstIdxGT r tl.time with
  | none =>
      rw [correctOne_eq_none tl r hfi] at h
      have : tl = tl2 := by simpa using h
      subst this
      exact ⟨rfl, rfl, rfl, rfl⟩
  | some i =>
      rw [correctOne_eq_some tl r i hfi] at h
      by_cases hz : i = 0
      · rw [if_pos hz] at h; exact absurd h (by simp)
      · rw [if_neg hz] at h
        simp at h
        subst h
        refine ⟨rfl, rfl, rfl, ?_⟩
        simp

theorem correction_fields (rs : List ℚ) :
    ∀ tl tl2 : JobTimeline, correct_time_due_suspension tl rs = Except.ok tl2 →
      tl2.iter = tl.iter ∧ tl2.time = tl.time ∧ tl2.skipped = tl.skipped ∧
        tl2.iter_time.length = tl.iter_time.length := by
  induction rs with
  | nil =>
      intro tl tl2 h
      have : tl = tl2 := by simpa [correct_time_due_suspension] using h
      subst this
      exact ⟨rfl, rfl, rfl, rfl⟩
  | cons r rs ih =>
      intro tl tl2 h
      unfold correct_time_due_suspension at h
      cases h1 : correctOne tl r with
      | error e => rw [h1] at h; exact absurd h (by simp [Except.bind])
      | ok tlo =>
          rw [h1] at h
          have h2 : correct_time_due_suspension tlo rs = Except.ok tl2 := by
            simpa [Except.bind] using h
          obtain ⟨a1, b1, c1, d1⟩ := correctOne_fields tl tlo r h1
          obtain ⟨a2, b2, c2, d2⟩ := ih tlo tl2 h2
          exact ⟨a2.trans a1, b2.trans b1, c2.trans c1, d2.trans d1⟩

/-- The assertion message is the only error the correction can produce. -/
theorem correctOne_error_msg (tl : JobTimeline) (r : ℚ) (e : String)
    (h : correctOne tl r = Except.error e) :
    e = "The job cannot be suspended before it started running" := by
  cases hfi : firstIdxGT r tl.time with
  | none => rw [correctOne_eq_none tl r hfi] at h; exact absurd h (by simp)
  | some i =>
      rw [correctOne_eq_some tl r i hfi] at h
      by_cases hz : i = 0
      · rw [if_pos hz] at h
        simp at h
        exact h.symm
      · rw [if_neg hz] at h; exact absurd h (by simp)

theorem correction_error_msg (rs : List ℚ) :
    ∀ (tl : JobTimeline) (e : String),
      correct_time_due_suspension tl rs = Except.error e →
      e = "The job cannot be suspended before it started running" := by
  induction rs with
  | nil =>
      intro tl e h
      exact absurd h (by simp [correct_time_due_suspension])
  | cons r rs ih =>
      intro tl e h
      unfold correct_time_due_suspension at h
      cases h1 : correctOne tl r with
      | error e1 =>
          rw [h1] at h
          have : e1 = e := by simpa [Except.bind] using h
          subst this
          exact correctOne_error_msg tl r e1 h1
      | ok tlo =>
          rw [h1] at h
          have h2 : correct_time_due_suspension tlo rs = Except.error e := by
            simpa [Except.bind] using h
          exact ih tlo e h2

/-- If some resume event of the list lands strictly before the first timeline
timestamp, the correction raises the assertion. -/
theorem correction_error_of_some_zero (rs : List ℚ) :
    ∀ tl : JobTimeline, (∃ r ∈ rs, firstIdxGT r tl.time = some 0) →
      ∃ e, correct_time_due_suspension tl rs = Except.error e := by
  induction rs with
  | nil => intro tl h; simp at h
  | cons r0 rs ih =>
      intro tl h
      rcases h with ⟨r, hr, hfi⟩
      rcases List.mem_cons.mp hr with rfl | hr'
      · refine ⟨"The job cannot be suspended before it started running", ?_⟩
        unfold correct_time_due_suspension correctOne
        rw [hfi]
        rfl
      · cases h1 : correctOne tl r0 with
        | error e =>
            refine ⟨e, ?_⟩
            unfold correct_time_due_suspension
            rw [h1]
            rfl
        | ok tlo =>
            have htime : tlo.time = tl.time := (correctOne_fields tl tlo r0 h1).2.1
            obtain ⟨e, he⟩ := ih tlo ⟨r, hr', by rw [htime]; exact hfi⟩
            refine ⟨e, ?_⟩
            unfold correct_time_due_suspension
            rw [h1]
            simpa [Except.bind] using he

/-! ### Lemmas about `parseJobs` and `parse_iteration_log` -/

theorem parseJobs_ok_keys (iters : List IterRec) (restarts : ℕ → List ℚ) :
    ∀ (js : List ℕ) (out : List (ℕ × JobTimeline)),
      parseJobs iters restarts js = Except.ok out → out.map Prod.fst = js := by
  intro js
  induction js with
  | nil =>
      intro out h
      have : ([] : List (ℕ × JobTimeline)) = out := by
        simpa [parseJobs] using h
      subst this
      rfl
  | cons j js ih =>
      intro out h
      unfold parseJobs at h
      cases h1 : correct_time_due_suspension (buildJob iters j) (restarts j) with
      | error e => rw [h1] at h; exact absurd h (by simp [Except.bind])
      | ok tl =>
          rw [h1] at h
          cases h2 : parseJobs iters restarts js with
          | error e => rw [h2] at h; exact absurd h (by simp [Except.bind])
          | ok rest =>
              rw [h2] at h
              have : (j, tl) :: rest = out := by simpa [Except.bind] using h
              subst this
              simp [ih rest h2]

theorem parseJobs_ok_mem (iters : List IterRec) (restarts : ℕ → List ℚ) :
    ∀ (js : List ℕ) (out : List (ℕ × JobTimeline)) (j : ℕ) (tl : JobTimeline),
      parseJobs iters restarts js = Except.ok out → (j, tl) ∈ out →
      j ∈ js ∧ correct_time_due_suspension (buildJob iters j) (restarts j) = Except.ok tl := by
  intro js
  induction js with
  | nil =>
      intro out j tl h hm
      have : ([] : List (ℕ × JobTimeline)) = out := by simpa [parseJobs] using h
      subst this
      simp at hm
  | cons j0 js ih =>
      intro out j tl h hm
      unfold parseJobs at h
      cases h1 : correct_time_due_suspension (buildJob iters j0) (restarts j0) with
      | error e => rw [h1] at h; exact absurd h (by simp [Except.bind])
      | ok tl0 =>
          rw [h1] at h
          cases h2 : parseJobs iters restarts js with
          | error e => rw [h2] at h; exact absurd h (by simp [Except.bind])
          | ok rest =>
              rw [h2] at h
              have : (j0, tl0) :: rest = out := by simpa [Except.bind] using h
              subst this
              rcases List.mem_cons.mp hm with heq | hmem
              · have hj : j = j0 := congrArg Prod.fst heq
                have htl : tl = tl0 := congrArg Prod.snd heq
                subst hj; subst htl
                exact ⟨by simp, h1⟩
              · obtain ⟨hin, hcorr⟩ := ih rest j tl h2 hmem
                exact ⟨by simp [hin], hcorr⟩

theorem parseJobs_ok_forall (iters : List IterRec) (restarts : ℕ → List ℚ) :
    ∀ (js : List ℕ) (out : List (ℕ × JobTimeline)),
      parseJobs iters restarts js = Except.ok out →
      ∀ j ∈ js, ∃ tl, correct_time_due_suspension (buildJob iters j) (restarts j)
        = Except.ok tl ∧ (j, tl) ∈ out := by
  intro js
  induction js with
  | nil => intro out _ j hj; simp at hj
  | cons j0 js ih =>
      intro out h j hj
      unfold parseJobs at h
      cases h1 : correct_time_due_suspension (buildJob iters j0) (restarts j0) with
      | error e => rw [h1] at h; exact absurd h (by simp [Except.bind])
      | ok tl0 =>
          rw [h1] at h
          cases h2 : parseJobs iters restarts js with
          | error e => rw [h2] at h; exact absurd h (by simp [Except.bind])
          | ok rest =>
              rw [h2] at h
              have : (j0, tl0) :: rest = out := by simpa [Except.bind] using h
              subst this
              rcases List.mem_cons.mp hj with rfl | hj'
              · exact ⟨tl0, h1, by simp⟩
              · obtain ⟨tl, hc, hm⟩ := ih rest h2 j hj'
                exact ⟨tl, hc, by simp [hm]⟩

theorem parseJobs_error_msg (iters : List IterRec) (restarts : ℕ → List ℚ) :
    ∀ (js : List ℕ) (e : String), parseJobs iters restarts js = Except.error e →
      e = "The job cannot be suspended before it started running" := by
  intro js
  induction js with
  | nil => intro e h; exact absurd h (by simp [parseJobs])
  | cons j0 js ih =>
      intro e h
      unfold parseJobs at h
      cases h1 : correct_time_due_suspension (buildJob iters j0) (restarts j0) with
      | error e1 =>
          rw [h1] at h
          have : e1 = e := by simpa [Except.bind] using h
          subst this
          exact correction_error_msg _ _ e1 h1
      | ok tl0 =>
          rw [h1] at h
          cases h2 : parseJobs iters restarts js with
          | error e2 =>
              rw [h2] at h
              have : e2 = e := by simpa [Except.bind] using h
              subst this
              exact ih e2 h2
          | ok rest =>
              rw [h2] at h
              exact absurd h (by simp [Except.bind])

theorem parseJobs_congr (iters : List IterRec) (r1 r2 : ℕ → List ℚ) :
    ∀ js : List ℕ, (∀ j ∈ js, r1 j = r2 j) →
      parseJobs iters r1 js = parseJobs iters r2 js := by
  intro js
  induction js with
  | nil => intro _; rfl
  | cons j0 js ih =>
      intro h
      unfold parseJobs
      rw [h j0 (by simp), ih (fun j hj => h j (by simp [hj]))]

/-! ### Membership and projection lemmas for the per-job build -/

theorem mem_recsOf (iters : List IterRec) (j : ℕ) (r : IterRec) :
    r ∈ recsOf iters j ↔ r ∈ iters ∧ r.job = j := by
  simp [recsOf, List.mem_filter]

theorem mem_groupOf (recs : List IterRec) (it : ℕ) (r : IterRec) :
    r ∈ groupOf recs it ↔ r ∈ recs ∧ r.iter = it := by
  simp [groupOf, List.mem_filter]

theorem explSkip_iff (recs : List IterRec) (it : ℕ) :
    explSkip recs it = true ↔ ∃ r ∈ recs, r.iter = it ∧ r.skipped = true := by
  simp only [explSkip, List.any_eq_true, mem_groupOf]
  constructor
  · rintro ⟨r, ⟨hr, hit⟩, hsk⟩
    exact ⟨r, hr, hit, hsk⟩
  · rintro ⟨r, hr, hit, hsk⟩
    exact ⟨r, ⟨hr, hit⟩, hsk⟩

theorem buildJob_iter (iters : List IterRec) (j : ℕ) :
    (buildJob iters j).iter = sortU ((recsOf iters j).map (fun r => r.iter)) := rfl

theorem buildJob_time (iters : List IterRec) (j : ℕ) :
    (buildJob iters j).time = (buildJob iters j).iter.map (avgTime (recsOf iters j)) := rfl

theorem buildJob_skipped (iters : List IterRec) (j : ℕ) :
    (buildJob iters j).skipped =
      List.zipWith (fun it g => explSkip (recsOf iters j) it || g)
        (buildJob iters j).iter (gapFlags (buildJob iters j).iter) := rfl

theorem buildJob_iter_time (iters : List IterRec) (j : ℕ) :
    (buildJob iters j).iter_time =
      List.zipWith (fun s d => if s then 0 else d)
        (buildJob iters j).skipped (durList (buildJob iters j).time) := rfl

theorem mem_buildJob_iter (iters : List IterRec) (j i : ℕ) :
    i ∈ (buildJob iters j).iter ↔ ∃ r ∈ iters, r.job = j ∧ r.iter = i := by
  rw [buildJob_iter, mem_sortU]
  simp only [List.mem_map, mem_recsOf]
  constructor
  · rintro ⟨r, ⟨hr, hj⟩, hi⟩
    exact ⟨r, hr, hj, hi⟩
  · rintro ⟨r, hr, hj, hi⟩
    exact ⟨r, ⟨hr, hj⟩, hi⟩

theorem buildJob_iter_ne_nil (iters : List IterRec) (j : ℕ)
    (h : j ∈ jobIdsOf iters) : (buildJob iters j).iter ≠ [] := by
  rw [jobIdsOf, mem_sortU] at h
  simp only [List.mem_map] at h
  obtain ⟨r, hr, hj⟩ := h
  intro hnil
  have : r.iter ∈ (buildJob iters j).iter := (mem_buildJob_iter iters j r.iter).mpr ⟨r, hr, hj, rfl⟩
  rw [hnil] at this
  simp at this

/-! ### Corpus-level lemmas -/

theorem allIters_append (fs1 fs2 : List LogFile) :
    allIters (fs1 ++ fs2) = allIters fs1 ++ allIters fs2 := by
  induction fs1 with
  | nil => rfl
  | cons f fs ih =>
      show f.iters ++ allIters (fs ++ fs2) = (f.iters ++ allIters fs) ++ allIters fs2
      rw [ih, List.append_assoc]

theorem mergeRestarts_append_single (files : List LogFile) (f : LogFile) (j : ℕ) :
    mergeRestarts (files ++ [f]) j =
      if fileHasSusp f j then find_suspended_timestamps f j else mergeRestarts files j := by
  unfold mergeRestarts
  rw [List.foldl_append]
  rfl

theorem mergeRestarts_chain' (files : List LogFile) (j : ℕ) :
    List.Chain' (· < ·) (mergeRestarts files j) := by
  suffices h : ∀ acc : List ℚ, List.Chain' (· < ·) acc →
      List.Chain' (· < ·) (files.foldl
        (fun acc f => if fileHasSusp f j then find_suspended_timestamps f j else acc) acc) by
    exact h [] (by simp)
  induction files with
  | nil => intro acc hacc; exact hacc
  | cons f fs ih =>
      intro acc hacc
      show List.Chain' (· < ·) (fs.foldl _ (if fileHasSusp f j then _ else acc))
      apply ih
      by_cases hs : fileHasSusp f j
      · rw [if_pos hs]; exact sortU_chain' _
      · rw [if_neg hs]; exact hacc

theorem parse_ok_mem (files : List LogFile) (out : List (ℕ × JobTimeline)) (j : ℕ)
    (tl : JobTimeline) (h : parse_iteration_log files = Except.ok out)
    (hm : (j, tl) ∈ out) :
    j ∈ jobIdsOf (allIters files) ∧
      correct_time_due_suspension (buildJob (allIters files) j) (mergeRestarts files j)
        = Except.ok tl :=
  parseJobs_ok_mem (allIters files) (mergeRestarts files) (jobIdsOf (allIters files)) out j tl h hm

theorem parse_ok_shape (files : List LogFile) (out : List (ℕ × JobTimeline)) (j : ℕ)
    (tl : JobTimeline) (h : parse_iteration_log files = Except.ok out)
    (hm : (j, tl) ∈ out) :
    tl.iter = (buildJob (allIters files) j).iter ∧
      tl.time = (buildJob (allIters files) j).time ∧
      tl.skipped = (buildJob (allIters files) j).skipped := by
  obtain ⟨-, hcorr⟩ := parse_ok_mem files out j tl h hm
  obtain ⟨hi, ht, hs, -⟩ := correction_fields _ _ _ hcorr
  exact ⟨hi, ht, hs⟩

/-! ### Concrete corpora used by the claim theorems -/

/-- Job 1 logs iterations 0, 1, 3 at times 0, 10, 30 and is resumed at 20:
iteration 3 is gap-skipped, and the resume falls between times 10 and 30. -/
def corpusC1 : List LogFile :=
  [⟨[⟨false, 0, 1, 0⟩, ⟨false, 1, 1, 10⟩, ⟨false, 3, 1, 30⟩], [⟨1, 20⟩]⟩]

def tlC1 : JobTimeline := ⟨[0, 1, 3], [0, 10, 30], [0, 10, -10], [false, false, true]⟩

/-- A single record for job 1, iteration 0, carrying the explicit skip marker. -/
def corpusC3 : List LogFile := [⟨[⟨true, 0, 1, 5⟩], []⟩]

def tlC3 : JobTimeline := ⟨[0], [5], [0], [true]⟩

/-- Job 1 is resumed at 5 before its first iteration timestamp 10; job 2 is
well-formed. -/
def corpusC4 : List LogFile :=
  [⟨[⟨false, 0, 1, 10⟩, ⟨false, 1, 1, 20⟩, ⟨false, 0, 2, 1⟩], [⟨1, 5⟩]⟩]

/-- Two files, each holding one suspension record for job 1. -/
def fileC5a : LogFile := ⟨[], [⟨1, 10⟩]⟩

def fileC5b : LogFile := ⟨[], [⟨1, 20⟩]⟩

/-- One iteration record for job 1; job 5 appears only in a suspension record
whose resume time precedes every iteration timestamp. -/
def corpusC8 : List LogFile := [⟨[⟨false, 0, 1, 3⟩], [⟨5, 1⟩]⟩]

def tlC8 : JobTimeline := ⟨[0], [3], [3], [false]⟩

/-- Job 1 reports iteration 0 at time 100 and iteration 1 at time 50. -/
def corpusC9 : List LogFile := [⟨[⟨false, 0, 1, 100⟩, ⟨false, 1, 1, 50⟩], []⟩]

def tlC9 : JobTimeline := ⟨[0, 1], [100, 50], [100, -50], [false, false]⟩

/-- Two records for (job 1, iteration 4) in two different files, timestamps
100 and 104. -/
def corpusC7 : List LogFile :=
  [⟨[⟨false, 4, 1, 100⟩], []⟩, ⟨[⟨false, 4, 1, 104⟩], []⟩]

def tlC7 : JobTimeline := ⟨[4], [102], [102], [false]⟩

/-- Job 1 logs iterations 0 and 2: position 1 is flagged by the gap
heuristic only. -/
def corpusC6 : List LogFile := [⟨[⟨false, 0, 1, 0⟩, ⟨false, 2, 1, 10⟩], []⟩]

def tlC6 : JobTimeline := ⟨[0, 2], [0, 10], [0, 0], [false, true]⟩

def corpusC10 : List LogFile := [⟨[⟨false, 0, 1, 3⟩], []⟩]

/-! ### Further helper lemmas -/

theorem explSkip_recsOf_iff (iters : List IterRec) (j it : ℕ) :
    explSkip (recsOf iters j) it = true ↔
      ∃ r ∈ iters, r.job = j ∧ r.iter = it ∧ r.skipped = true := by
  rw [explSkip_iff]
  constructor
  · rintro ⟨r, hr, hit, hsk⟩
    rw [mem_recsOf] at hr
    exact ⟨r, hr.1, hr.2, hit, hsk⟩
  · rintro ⟨r, hr, hj, hit, hsk⟩
    exact ⟨r, (mem_recsOf _ _ _).mpr ⟨hr, hj⟩, hit, hsk⟩

theorem buildJob_skipped_head (iters : List IterRec) (j i0 : ℕ) (rest : List ℕ)
    (h : (buildJob iters j).iter = i0 :: rest) :
    (buildJob iters j).skipped.getD 0 false = explSkip (recsOf iters j) i0 := by
  rw [buildJob_skipped, h]
  show (explSkip (recsOf iters j) i0 || false) = explSkip (recsOf iters j) i0
  exact Bool.or_false _

theorem buildJob_skipped_get?_iff (iters : List IterRec) (j k : ℕ) (b : Bool) :
    (buildJob iters j).skipped.get? k = some b ↔
      ∃ it g, (buildJob iters j).iter.get? k = some it ∧
        (gapFlags (buildJob iters j).iter).get? k = some g ∧
        (explSkip (recsOf iters j) it || g) = b := by
  rw [buildJob_skipped]
  exact List.get?_zipWith_eq_some _ _ _ _ _

theorem gapFlags_get?_zero' (l : List ℕ) :
    (gapFlags l).get? 0 = (l.get? 0).map (fun _ => false) := by
  cases l with
  | nil => rfl
  | cons i is => rfl

theorem buildJob_time_get? (iters : List IterRec) (j k it : ℕ)
    (h : (buildJob iters j).iter.get? k = some it) :
    (buildJob iters j).time.get? k = some (avgTime (recsOf iters j) it) := by
  rw [buildJob_time, List.get?_map, h]
  rfl

theorem groupOf_recsOf (iters : List IterRec) (j it : ℕ) :
    groupOf (recsOf iters j) it = iters.filter (fun r => r.job == j && r.iter == it) := by
  unfold groupOf recsOf
  rw [List.filter_filter]
  apply List.filter_congr
  intro a _
  exact Bool.and_comm _ _

/-! ### Claim theorems -/

/-- C1: the claim states that in the final output (after skip annotation and
suspension correction) `skipped[i] = true` implies `duration[i] = 0`.  The code
violates it: durations are zeroed at skipped positions BEFORE the suspension
correction, and a resume event falling just before a skipped position then
subtracts a positive offset from its zero duration.  On `corpusC1` the final
timeline has `skipped[2] = true` but `duration[2] = -10`. -/
theorem c1_skipped_duration_eval :
    parse_iteration_log corpusC1 = Except.ok [(1, tlC1)] ∧
      tlC1.skipped.getD 2 false = true ∧ tlC1.iter_time.getD 2 0 ≠ 0 := by
  refine ⟨?_, by decide, by norm_num [tlC1]⟩
  norm_num [parse_iteration_log, parseJobs, allIters, mergeRestarts, fileHasSusp,
    find_suspended_timestamps, jobIdsOf, sortU, insortU, buildJob, recsOf, groupOf,
    avgTime, explSkip, durList, gapFlags, correct_time_due_suspension, correctOne,
    firstIdxGT, corpusC1, tlC1, Except.bind]

/-- C3 (counterexample): a record for the job's first observed iteration that
carries the explicit skip marker makes `skipped[0] = true` in the final
output, contradicting the claim that `skipped[0]` is false regardless of the
input records. -/
theorem c3_counterexample :
    parse_iteration_log corpusC3 = Except.ok [(1, tlC3)] ∧
      tlC3.skipped.getD 0 false = true := by
  refine ⟨?_, by decide⟩
  norm_num [parse_iteration_log, parseJobs, allIters, mergeRestarts, fileHasSusp,
    find_suspended_timestamps, jobIdsOf, sortU, insortU, buildJob, recsOf, groupOf,
    avgTime, explSkip, durList, gapFlags, correct_time_due_suspension, correctOne,
    firstIdxGT, corpusC3, tlC3, Except.bind]

/-- C4 (counterexample): in `corpusC4` job 1 has a resume event (5) strictly
before its first iteration timestamp (10) while job 2 is well-formed, yet the
whole parse fails with the fixed assertion message: job 2's reconstruction is
not returned, and the error carries neither the job id nor the resume
timestamp. -/
theorem c4_counterexample :
    parse_iteration_log corpusC4 =
      Except.error "The job cannot be suspended before it started running" := by
  norm_num [parse_iteration_log, parseJobs, allIters, mergeRestarts, fileHasSusp,
    find_suspended_timestamps, jobIdsOf, sortU, insortU, buildJob, recsOf, groupOf,
    avgTime, explSkip, durList, gapFlags, correct_time_due_suspension, correctOne,
    firstIdxGT, corpusC4, Except.bind]

/-- C5: the claim states the suspension index pools each job's resume times
across all files.  The code merges per-file dicts with `|=`, which replaces a
job's list wholesale: with resume 10 in the first file and resume 20 in the
second, the merged index for job 1 is `[20]` — the first file's record,
although present in its per-file index, is lost. -/
theorem c5_merge_eval :
    mergeRestarts [fileC5a, fileC5b] 1 = [20] ∧
      (10 : ℚ) ∈ find_suspended_timestamps fileC5a 1 ∧
      (10 : ℚ) ∉ mergeRestarts [fileC5a, fileC5b] 1 := by
  refine ⟨?_, ?_, ?_⟩ <;>
  norm_num [mergeRestarts, fileHasSusp, find_suspended_timestamps, sortU, insortU,
    fileC5a, fileC5b]

/-- C8 (counterexample): job 5 has zero iteration records in `corpusC8`; the
output contains no entry for it at all (lookup yields `none`), rather than an
empty `JobTimeline` as the claim states. -/
theorem c8_counterexample :
    parse_iteration_log corpusC8 = Except.ok [(1, tlC8)] ∧
      List.lookup 5 [(1, tlC8)] = none := by
  refine ⟨?_, by decide⟩
  norm_num [parse_iteration_log, parseJobs, allIters, mergeRestarts, fileHasSusp,
    find_suspended_timestamps, jobIdsOf, sortU, insortU, buildJob, recsOf, groupOf,
    avgTime, explSkip, durList, gapFlags, correct_time_due_suspension, correctOne,
    firstIdxGT, corpusC8, tlC8, Except.bind]

/-- C9 (counterexample): nothing forces per-iteration mean timestamps to be
monotone in the input; with job 1 reporting iteration 0 at time 100 and
iteration 1 at time 50, the output `cumulative_time` is `[100, 50]`, which is
not non-decreasing. -/
theorem c9_counterexample :
    parse_iteration_log corpusC9 = Except.ok [(1, tlC9)] ∧
      ¬ List.Chain' (· ≤ ·) tlC9.time := by
  refine ⟨?_, ?_⟩
  · norm_num [parse_iteration_log, parseJobs, allIters, mergeRestarts, fileHasSusp,
      find_suspended_timestamps, jobIdsOf, sortU, insortU, buildJob, recsOf, groupOf,
      avgTime, explSkip, durList, gapFlags, correct_time_due_suspension, correctOne,
      firstIdxGT, corpusC9, tlC9, Except.bind]
  · intro h
    rw [show tlC9.time = [(100 : ℚ), 50] from rfl, List.chain'_cons] at h
    exact absurd h.1 (by norm_num)

/-- C2: each resume event of the job's suspension index (a strictly ascending
list, processed in order and cumulatively, each event touching only the single
duration entry of the iteration that follows it): if the first position `i`
with cumulative timestamp strictly greater than `r` exists and `i > 0`, the
duration at `i` is decreased in place by `r - time[i-1]`; if no position's
timestamp exceeds `r`, the event changes nothing. -/
theorem c2_suspension_correction :
    (∀ (tl : JobTimeline) (r : ℚ) (i : ℕ),
        i < tl.time.length → (∀ k, k < i → tl.time.getD k 0 ≤ r) →
        r < tl.time.getD i 0 → 0 < i →
        correctOne tl r = Except.ok ⟨tl.iter, tl.time,
          tl.iter_time.set i (tl.iter_time.getD i 0 - (r - tl.time.getD (i - 1) 0)),
          tl.skipped⟩) ∧
    (∀ (tl : JobTimeline) (r : ℚ),
        (∀ k, k < tl.time.length → tl.time.getD k 0 ≤ r) →
        correctOne tl r = Except.ok tl) ∧
    (∀ (tl : JobTimeline) (r : ℚ) (rs : List ℚ),
        correct_time_due_suspension tl (r :: rs) =
          (correctOne tl r).bind (fun tl2 => correct_time_due_suspension tl2 rs)) ∧
    (∀ (files : List LogFile) (j : ℕ), List.Chain' (· < ·) (mergeRestarts files j)) := by
  refine ⟨?_, ?_, ?_, ?_⟩
  · intro tl r i h1 h2 h3 h4
    rw [correctOne_eq_some tl r i (firstIdxGT_eq_some r tl.time i h1 h2 h3),
      if_neg (Nat.pos_iff_ne_zero.mp h4)]
  · intro tl r h
    exact correctOne_eq_none tl r (firstIdxGT_eq_none r tl.time h)
  · intro tl r rs
    rfl
  · exact mergeRestarts_chain'

def tlC2 : JobTimeline := ⟨[0, 1], [0, 10], [0, 10], [false, false]⟩

theorem c2_suspension_correction_witness :
    correctOne tlC2 5 = Except.ok ⟨[0, 1], [0, 10], [0, 5], [false, false]⟩ := by
  have h := c2_suspension_correction.1 tlC2 5 1 (by decide)
    (by
      intro k hk
      interval_cases k
      decide)
    (by decide) (by decide)
  refine h.trans ?_
  norm_num [tlC2]

/-- C3 (amended): position 0 is exempt from the gap heuristic, but not from
the explicit marker: in the final output, `skipped[0]` is true exactly when
some record for the job's first observed iteration carries the skip marker. -/
theorem c3_first_position_skip :
    ∀ (files : List LogFile) (out : List (ℕ × JobTimeline)) (j : ℕ) (tl : JobTimeline)
      (i0 : ℕ) (rest : List ℕ),
      parse_iteration_log files = Except.ok out → (j, tl) ∈ out →
      tl.iter = i0 :: rest →
      (tl.skipped.getD 0 false = true ↔
        ∃ r ∈ allIters files, r.job = j ∧ r.iter = i0 ∧ r.skipped = true) := by
  intro files out j tl i0 rest hok hm hiter
  obtain ⟨hI, -, hS⟩ := parse_ok_shape files out j tl hok hm
  have hbi : (buildJob (allIters files) j).iter = i0 :: rest := hI.symm.trans hiter
  rw [hS, buildJob_skipped_head (allIters files) j i0 rest hbi]
  exact explSkip_recsOf_iff (allIters files) j i0

theorem c3_first_position_skip_witness :
    tlC3.skipped.getD 0 false = true ↔
      ∃ r ∈ allIters corpusC3, r.job = 1 ∧ r.iter = 0 ∧ r.skipped = true := by
  refine c3_first_position_skip corpusC3 [(1, tlC3)] 1 tlC3 0 [] ?_ (by simp) (by decide)
  norm_num [parse_iteration_log, parseJobs, allIters, mergeRestarts, fileHasSusp,
    find_suspended_timestamps, jobIdsOf, sortU, insortU, buildJob, recsOf, groupOf,
    avgTime, explSkip, durList, gapFlags, correct_time_due_suspension, correctOne,
    firstIdxGT, corpusC3, tlC3, Except.bind]

/-- C4 (amended): a resume event strictly before the job's first recorded
iteration timestamp makes reconstruction fail, but the failure is a plain
assertion whose message is fixed — it carries neither the offending job id nor
the resume timestamp — and it aborts the whole corpus: no mapping for the
other jobs is returned. -/
theorem c4_error_behavior :
    (∀ (files : List LogFile) (j : ℕ) (r t0 : ℚ),
        j ∈ jobIdsOf (allIters files) → r ∈ mergeRestarts files j →
        (buildJob (allIters files) j).time.get? 0 = some t0 → r < t0 →
        ∃ e, parse_iteration_log files = Except.error e) ∧
    (∀ (files : List LogFile) (e : String),
        parse_iteration_log files = Except.error e →
        e = "The job cannot be suspended before it started running") := by
  constructor
  · intro files j r t0 hj hr ht0 hrt
    have hzero : firstIdxGT r (buildJob (allIters files) j).time = some 0 := by
      cases htime : (buildJob (allIters files) j).time with
      | nil => rw [htime] at ht0; simp at ht0
      | cons t ts =>
          rw [htime] at ht0
          have : t = t0 := by simpa using ht0
          subst this
          exact firstIdxGT_cons_zero r t ts hrt
    obtain ⟨e, he⟩ := correction_error_of_some_zero (mergeRestarts files j)
      (buildJob (allIters files) j) ⟨r, hr, hzero⟩
    cases hp : parse_iteration_log files with
    | error e2 => exact ⟨e2, rfl⟩
    | ok out =>
        exfalso
        have hp' : parseJobs (allIters files) (mergeRestarts files)
            (jobIdsOf (allIters files)) = Except.ok out := hp
        obtain ⟨tl, hc, -⟩ := parseJobs_ok_forall _ _ _ out hp' j hj
        exact absurd (hc.symm.trans he) (by simp)
  · intro files e h
    exact parseJobs_error_msg _ _ _ e h

theorem c4_error_behavior_witness :
    ∃ e, parse_iteration_log corpusC4 = Except.error e := by
  refine c4_error_behavior.1 corpusC4 1 5 10 (by decide) (by decide) ?_ (by decide)
  norm_num [buildJob, allIters, recsOf, groupOf, avgTime, explSkip, durList,
    gapFlags, sortU, insortU, corpusC4]

/-- C6: a timeline position is flagged skipped exactly when the explicit
marker signal or the gap heuristic fires, combined by OR; position `k > 0`
triggers the gap heuristic when `iter[k] - iter[k-1] - 1 ≠ 0` (int64
arithmetic), and position 0 is exempt from the heuristic. -/
theorem c6_skip_signals :
    ∀ (files : List LogFile) (out : List (ℕ × JobTimeline)) (j : ℕ) (tl : JobTimeline)
      (k it : ℕ) (b : Bool),
      parse_iteration_log files = Except.ok out → (j, tl) ∈ out →
      tl.iter.get? k = some it → tl.skipped.get? k = some b →
      (b = true ↔
        (∃ r ∈ allIters files, r.job = j ∧ r.iter = it ∧ r.skipped = true) ∨
        (0 < k ∧ ∃ itp, tl.iter.get? (k - 1) = some itp ∧
          (it : ℤ) - (itp : ℤ) - 1 ≠ 0)) := by
  intro files out j tl k it b hok hm hit hsk
  obtain ⟨hI, -, hS⟩ := parse_ok_shape files out j tl hok hm
  rw [hI] at hit
  rw [hS] at hsk
  rw [hI]
  obtain ⟨it', g, hit', hg, hb⟩ := (buildJob_skipped_get?_iff (allIters files) j k b).mp hsk
  have hiteq : it' = it := by
    rw [hit] at hit'
    exact (Option.some.inj hit').symm
  rw [hiteq] at hb
  subst hb
  rw [Bool.or_eq_true, explSkip_recsOf_iff]
  cases k with
  | zero =>
      rw [gapFlags_get?_zero', hit] at hg
      have hgf : g = false := by simpa using hg.symm
      subst hgf
      simp
  | succ k' =>
      obtain ⟨a, b', ha, hb', hdec⟩ := (gapFlags_get?_succ _ k' g).mp hg
      have hb'eq : b' = it := by
        rw [hit] at hb'
        exact (Option.some.inj hb').symm
      subst hb'eq
      subst hdec
      constructor
      · rintro (hexp | hgap)
        · exact Or.inl hexp
        · refine Or.inr ⟨Nat.succ_pos k', a, ?_, ?_⟩
          · simpa using ha
          · exact of_decide_eq_true hgap
      · rintro (hexp | ⟨-, itp, hitp, hne⟩)
        · exact Or.inl hexp
        · have hitpa : itp = a := by
            have ha' : (buildJob (allIters files) j).iter.get? (k' + 1 - 1) = some a := by
              simpa using ha
            rw [ha'] at hitp
            exact (Option.some.inj hitp).symm
          subst hitpa
          exact Or.inr (decide_eq_true hne)

theorem c6_skip_signals_witness :
    (true : Bool) = true ↔
      (∃ r ∈ allIters corpusC6, r.job = 1 ∧ r.iter = 2 ∧ r.skipped = true) ∨
      (0 < 1 ∧ ∃ itp, tlC6.iter.get? (1 - 1) = some itp ∧
        (2 : ℤ) - (itp : ℤ) - 1 ≠ 0) := by
  refine c6_skip_signals corpusC6 [(1, tlC6)] 1 tlC6 1 2 true ?_ (by simp)
    (by decide) (by decide)
  norm_num [parse_iteration_log, parseJobs, allIters, mergeRestarts, fileHasSusp,
    find_suspended_timestamps, jobIdsOf, sortU, insortU, buildJob, recsOf, groupOf,
    avgTime, explSkip, durList, gapFlags, correct_time_due_suspension, correctOne,
    firstIdxGT, corpusC6, tlC6, Except.bind]

/-- C7: the aggregation stage yields the sorted-ascending distinct iteration
numbers observed for the job (no interpolation), and each position's
representative timestamp is the arithmetic mean of the timestamps of all
records for that (job, iteration) pooled across all source files; in
particular two records with timestamps 100 and 104 (in different files)
aggregate to 102. -/
theorem c7_aggregation :
    (∀ (files : List LogFile) (out : List (ℕ × JobTimeline)) (j : ℕ) (tl : JobTimeline),
        parse_iteration_log files = Except.ok out → (j, tl) ∈ out →
        List.Chain' (· < ·) tl.iter ∧
        (∀ i, i ∈ tl.iter ↔ ∃ r ∈ allIters files, r.job = j ∧ r.iter = i) ∧
        (∀ (k it : ℕ), tl.iter.get? k = some it →
          tl.time.get? k = some
            ((((allIters files).filter (fun r => r.job == j && r.iter == it)).map
                (fun r => r.time)).sum /
              (((allIters files).filter
                  (fun r => r.job == j && r.iter == it)).length : ℚ)))) ∧
    parse_iteration_log corpusC7 = Except.ok [(1, tlC7)] := by
  constructor
  · intro files out j tl hok hm
    obtain ⟨hI, hT, -⟩ := parse_ok_shape files out j tl hok hm
    refine ⟨?_, ?_, ?_⟩
    · rw [hI, buildJob_iter]
      exact sortU_chain' _
    · intro i
      rw [hI, mem_buildJob_iter]
    · intro k it hit
      rw [hI] at hit
      rw [hT, buildJob_time_get? (allIters files) j k it hit]
      simp only [avgTime, groupOf_recsOf]
  · norm_num [parse_iteration_log, parseJobs, allIters, mergeRestarts, fileHasSusp,
      find_suspended_timestamps, jobIdsOf, sortU, insortU, buildJob, recsOf, groupOf,
      avgTime, explSkip, durList, gapFlags, correct_time_due_suspension, correctOne,
      firstIdxGT, corpusC7, tlC7, Except.bind]

theorem c7_aggregation_witness :
    tlC7.time.get? 0 = some
      ((((allIters corpusC7).filter (fun r => r.job == 1 && r.iter == 4)).map
          (fun r => r.time)).sum /
        (((allIters corpusC7).filter (fun r => r.job == 1 && r.iter == 4)).length : ℚ)) := by
  refine (c7_aggregation.1 corpusC7 [(1, tlC7)] 1 tlC7 c7_aggregation.2
    (by simp)).2.2 0 4 (by decide)

/-- C8 (amended): a job id with zero iteration records yields no entry in the
output mapping at all — it is absent, rather than mapped to an empty
`JobTimeline` — and its records cause no error (a corpus whose files contain
only suspension records parses to the empty mapping). -/
theorem c8_absent_job :
    (∀ (files : List LogFile) (out : List (ℕ × JobTimeline)) (j : ℕ),
        (∀ r ∈ allIters files, r.job ≠ j) → parse_iteration_log files = Except.ok out →
        ∀ p ∈ out, p.1 ≠ j) ∧
    (∀ ss : List SuspRec, parse_iteration_log [⟨[], ss⟩] = Except.ok []) := by
  constructor
  · intro files out j hnone hok p hp
    obtain ⟨j', tl⟩ := p
    have hj' := (parse_ok_mem files out j' tl hok hp).1
    rw [jobIdsOf, mem_sortU] at hj'
    simp only [List.mem_map] at hj'
    obtain ⟨r, hr, hjr⟩ := hj'
    show j' ≠ j
    rw [← hjr]
    exact hnone r hr
  · intro ss
    rfl

theorem c8_absent_job_witness :
    ((1 : ℕ), tlC8).1 ≠ 5 := by
  refine c8_absent_job.1 corpusC8 [(1, tlC8)] 5 (by decide) ?_ (1, tlC8) (by simp)
  norm_num [parse_iteration_log, parseJobs, allIters, mergeRestarts, fileHasSusp,
    find_suspended_timestamps, jobIdsOf, sortU, insortU, buildJob, recsOf, groupOf,
    avgTime, explSkip, durList, gapFlags, correct_time_due_suspension, correctOne,
    firstIdxGT, corpusC8, tlC8, Except.bind]

/-- C9 (amended): in every successfully parsed output each job's `iter`
sequence is strictly increasing; its `time` sequence is non-decreasing
provided the job's input records have timestamps that are monotone in the
iteration number (the code does not enforce or check this — see the
counterexample). -/
theorem c9_ordering :
    ∀ (files : List LogFile) (out : List (ℕ × JobTimeline)) (j : ℕ) (tl : JobTimeline),
      parse_iteration_log files = Except.ok out → (j, tl) ∈ out →
      List.Chain' (· < ·) tl.iter ∧
      ((∀ r1 ∈ recsOf (allIters files) j, ∀ r2 ∈ recsOf (allIters files) j,
          r1.iter < r2.iter → r1.time ≤ r2.time) →
        List.Chain' (· ≤ ·) tl.time) := by
  intro files out j tl hok hm
  obtain ⟨hI, hT, -⟩ := parse_ok_shape files out j tl hok hm
  refine ⟨by rw [hI, buildJob_iter]; exact sortU_chain' _, ?_⟩
  intro hmono
  rw [hT, buildJob_time]
  apply chain'_le_map
  · rw [buildJob_iter]
    exact sortU_chain' _
  · intro a ha b hb hab
    have hga : ∃ r ∈ recsOf (allIters files) j, r.iter = a := by
      rw [mem_buildJob_iter] at ha
      obtain ⟨r, hr, hjr, hir⟩ := ha
      exact ⟨r, (mem_recsOf _ _ _).mpr ⟨hr, hjr⟩, hir⟩
    have hgb : ∃ r ∈ recsOf (allIters files) j, r.iter = b := by
      rw [mem_buildJob_iter] at hb
      obtain ⟨r, hr, hjr, hir⟩ := hb
      exact ⟨r, (mem_recsOf _ _ _).mpr ⟨hr, hjr⟩, hir⟩
    obtain ⟨ra, hra, hia⟩ := hga
    obtain ⟨rb, hrb, hib⟩ := hgb
    have hna : (groupOf (recsOf (allIters files) j) a).map (fun r => r.time) ≠ [] := by
      have : ra ∈ groupOf (recsOf (allIters files) j) a :=
        (mem_groupOf _ _ _).mpr ⟨hra, hia⟩
      intro hcon
      rw [List.map_eq_nil] at hcon
      rw [hcon] at this
      simp at this
    have hnb : (groupOf (recsOf (allIters files) j) b).map (fun r => r.time) ≠ [] := by
      have : rb ∈ groupOf (recsOf (allIters files) j) b :=
        (mem_groupOf _ _ _).mpr ⟨hrb, hib⟩
      intro hcon
      rw [List.map_eq_nil] at hcon
      rw [hcon] at this
      simp at this
    have hle : ∀ x ∈ (groupOf (recsOf (allIters files) j) a).map (fun r => r.time),
        ∀ y ∈ (groupOf (recsOf (allIters files) j) b).map (fun r => r.time), x ≤ y := by
      intro x hx y hy
      rw [List.mem_map] at hx hy
      obtain ⟨r1, hr1, hx1⟩ := hx
      obtain ⟨r2, hr2, hy2⟩ := hy
      rw [mem_groupOf] at hr1 hr2
      rw [← hx1, ← hy2]
      apply hmono r1 hr1.1 r2 hr2.1
      rw [hr1.2, hr2.2]
      exact hab
    have := mean_le_mean _ _ hna hnb hle
    unfold avgTime
    rw [List.length_map, List.length_map] at this
    exact this

def tlC10 : JobTimeline := ⟨[0], [3], [3], [false]⟩

theorem c9_ordering_witness :
    List.Chain' (· < ·) tlC10.iter ∧ List.Chain' (· ≤ ·) tlC10.time := by
  have h := c9_ordering corpusC10 [(1, tlC10)] 1 tlC10
    (by norm_num [parse_iteration_log, parseJobs, allIters, mergeRestarts, fileHasSusp,
      find_suspended_timestamps, jobIdsOf, sortU, insortU, buildJob, recsOf, groupOf,
      avgTime, explSkip, durList, gapFlags, correct_time_due_suspension, correctOne,
      firstIdxGT, corpusC10, tlC10, Except.bind]) (by simp)
  refine ⟨h.1, h.2 ?_⟩
  intro r1 h1 r2 h2 hlt
  have hre : recsOf (allIters corpusC10) 1 = [⟨false, 0, 1, 3⟩] := by decide
  rw [hre, List.mem_singleton] at h1 h2
  rw [h1, h2] at hlt
  exact absurd hlt (lt_irrefl _)

/-- C10: the output's job ids are exactly the distinct job ids of the
iteration records, and every output timeline is nonempty; suspension records
for a job with no iteration records are inert — appending a file that holds
only such records changes nothing (in particular, no error is raised even
though those resume events precede every recorded iteration). -/
theorem c10_output_jobs :
    (∀ (files : List LogFile) (out : List (ℕ × JobTimeline)),
        parse_iteration_log files = Except.ok out →
        (∀ j, (∃ tl, (j, tl) ∈ out) ↔ ∃ r ∈ allIters files, r.job = j) ∧
        (∀ p ∈ out, p.2.iter ≠ [])) ∧
    (∀ (files : List LogFile) (j : ℕ) (ss : List SuspRec),
        (∀ s ∈ ss, s.job = j) → (∀ r ∈ allIters files, r.job ≠ j) →
        parse_iteration_log (files ++ [⟨[], ss⟩]) = parse_iteration_log files) := by
  constructor
  · intro files out hok
    constructor
    · intro j
      constructor
      · rintro ⟨tl, hm⟩
        have hj := (parse_ok_mem files out j tl hok hm).1
        rw [jobIdsOf, mem_sortU] at hj
        simp only [List.mem_map] at hj
        obtain ⟨r, hr, hjr⟩ := hj
        exact ⟨r, hr, hjr⟩
      · rintro ⟨r, hr, hjr⟩
        have hj : j ∈ jobIdsOf (allIters files) := by
          rw [jobIdsOf, mem_sortU]
          exact List.mem_map.mpr ⟨r, hr, hjr⟩
        have hok' : parseJobs (allIters files) (mergeRestarts files)
            (jobIdsOf (allIters files)) = Except.ok out := hok
        obtain ⟨tl, -, hm⟩ := parseJobs_ok_forall _ _ _ out hok' j hj
        exact ⟨tl, hm⟩
    · rintro ⟨j, tl⟩ hm
      have hj := (parse_ok_mem files out j tl hok hm).1
      obtain ⟨hI, -, -⟩ := parse_ok_shape files out j tl hok hm
      show tl.iter ≠ []
      rw [hI]
      exact buildJob_iter_ne_nil _ _ hj
  · intro files j ss hss hnj
    unfold parse_iteration_log
    have hAll : allIters (files ++ [⟨[], ss⟩]) = allIters files := by
      rw [allIters_append]
      show allIters files ++ ([] ++ []) = allIters files
      simp
    rw [hAll]
    apply parseJobs_congr
    intro j' hj'
    rw [mergeRestarts_append_single]
    have hjj : j' ≠ j := by
      rw [jobIdsOf, mem_sortU] at hj'
      simp only [List.mem_map] at hj'
      obtain ⟨r, hr, hjr⟩ := hj'
      rw [← hjr]
      exact hnj r hr
    have hsusp : ¬ (fileHasSusp ⟨[], ss⟩ j' = true) := by
      rw [fileHasSusp]
      simp only [List.any_eq_true, beq_iff_eq, not_exists]
      rintro s ⟨hs, hsj⟩
      exact hjj (hsj ▸ (hss s hs) ▸ rfl)
    rw [if_neg hsusp]

theorem c10_output_jobs_witness :
    parse_iteration_log (corpusC10 ++ [⟨[], [⟨7, 2⟩]⟩]) = parse_iteration_log corpusC10 :=
  c10_output_jobs.2 corpusC10 7 [⟨7, 2⟩] (by decide) (by decide)

end IterTimeline
